import Mathlib

/-!
Verification of the votelib apportionment engine against its specification.

The repository ships only usage examples (the German 2017 Bundestag and the
Slovak 2020 parliamentary notebooks); the evaluation engine they exercise is
not part of the source tree.  The definitions below therefore embed the
engine as described by the specification document, component by component,
and are exercised against the concrete inputs and printed outputs recorded
in the notebooks.
-/

set_option maxRecDepth 100000

/-- Equality on `Except` results is decidable when it is on both components. -/
instance {ε α : Type} [DecidableEq ε] [DecidableEq α] : DecidableEq (Except ε α) := fun x y =>
  match x, y with
  | .ok a, .ok b =>
    if h : a = b then isTrue (by rw [h]) else isFalse (fun hh => h (Except.ok.inj hh))
  | .ok _, .error _ => isFalse (fun hh => Except.noConfusion hh)
  | .error _, .ok _ => isFalse (fun hh => Except.noConfusion hh)
  | .error e, .error f =>
    if h : e = f then isTrue (by rw [h]) else isFalse (fun hh => h (Except.error.inj hh))

namespace Votelib

/-- Value of a key in an association-list mapping: the sum of all entries
carrying that key (a key absent from the mapping has value 0). -/
def val {κ : Type} [DecidableEq κ] : List (κ × ℕ) → κ → ℕ
  | [], _ => 0
  | (k₀, v₀) :: rest, k => (if k₀ = k then v₀ else 0) + val rest k

/-- Total of all values in a mapping (total votes cast, or total seats awarded). -/
def total {κ : Type} (m : List (κ × ℕ)) : ℕ :=
  (m.map Prod.snd).sum

/-- Modelled from the spec: the d'Hondt divisor sequence 1, 2, 3, … of the
highest-averages apportionment (§4.2); the engine source is not in the repo. -/
def dhondt (k : ℕ) : ℕ := k + 1

/-- Modelled from the spec: the Sainte-Laguë divisor sequence 1, 3, 5, … of the
highest-averages apportionment (§4.2); the engine source is not in the repo. -/
def sainteLague (k : ℕ) : ℕ := 2 * k + 1

/-- Modelled from the spec: scan for the globally largest unassigned quotient
votes/divisor (§4.2).  Quotients are compared exactly by cross-multiplication;
`acc` is the best `(index, votes, divisor)` seen so far, and only a strictly
larger quotient replaces it, so exact ties go to the earlier candidate
(stable input order, the deterministic tie-break the spec requires). -/
def haBestIdx (d : ℕ → ℕ) : List (ℕ × ℕ) → ℕ → ℕ × ℕ × ℕ → ℕ × ℕ × ℕ
  | [], _, acc => acc
  | (v, s) :: rest, i, acc =>
    if acc.2.1 * d s < v * acc.2.2 then haBestIdx d rest (i + 1) (i, v, d s)
    else haBestIdx d rest (i + 1) acc

/-- Modelled from the spec: pick the candidate holding the largest current
quotient, given the vote list and the seats already awarded to each (§4.2). -/
def haPick (d : ℕ → ℕ) (votes alloc : List ℕ) : ℕ × ℕ × ℕ :=
  match votes, alloc with
  | v :: vs, s :: ss => haBestIdx d (vs.zip ss) 1 (0, v, d s)
  | _, _ => (0, 0, 1)

/-- Modelled from the spec: award one seat to the candidate with the largest
quotient (§4.2).  A zero-vote candidate has quotient 0 and is never chosen
while any candidate has positive votes; if every candidate has zero votes no
seat can be awarded and the allocation is returned unchanged. -/
def haRound (d : ℕ → ℕ) (votes alloc : List ℕ) : List ℕ :=
  if (haPick d votes alloc).2.1 = 0 then alloc
  else alloc.set (haPick d votes alloc).1 (alloc.getD (haPick d votes alloc).1 0 + 1)

/-- Modelled from the spec: the highest-averages allocation loop, awarding
`T` seats one at a time to the largest quotient (§4.2). -/
def haAlloc (d : ℕ → ℕ) (votes : List ℕ) : ℕ → List ℕ
  | 0 => List.replicate votes.length 0
  | T + 1 => haRound d votes (haAlloc d votes T)

/-- Apply `k` further rounds of the highest-averages loop to an allocation. -/
def haRoundN (d : ℕ → ℕ) (votes : List ℕ) : ℕ → List ℕ → List ℕ
  | 0, l => l
  | k + 1, l => haRound d votes (haRoundN d votes k l)

/-- Modelled from the spec: the `HighestAverages` apportionment primitive
(§4.2), keyed by candidate; the engine source is not in the repo. -/
def haEvaluate {κ : Type} (d : ℕ → ℕ) (votes : List (κ × ℕ)) (T : ℕ) : List (κ × ℕ) :=
  (votes.map Prod.fst).zip (haAlloc d (votes.map Prod.snd) T)

/-- Modelled from the spec: the Hare quota, total votes / seats, kept as an
exact fraction `(numerator, denominator)` (§4.3); the engine source is not in
the repo.  A candidate with `v` votes is worth `v / (num/den) = v·den/num`
quota units. -/
def hareQuota (V T : ℕ) : ℕ × ℕ := (V, T)

/-- Modelled from the spec: the Hagenbach-Bischoff quota total votes / (seats+1)
as an exact fraction (§4.3). -/
def hagenbachBischoffQuota (V T : ℕ) : ℕ × ℕ := (V, T + 1)

/-- Modelled from the spec: the Hagenbach-Bischoff quota with mathematical
rounding (round half up) applied to the quota before division (§4.3),
`round(V/(T+1)) = ⌊(2V + (T+1)) / (2(T+1))⌋`. -/
def hagenbachBischoffRoundedQuota (V T : ℕ) : ℕ × ℕ :=
  ((2 * V + (T + 1)) / (2 * (T + 1)), 1)

/-- Largest unmarked remainder value in the top-up selection state, if any
entry is still unmarked. -/
def bestUnmarked : List (ℕ × Bool) → Option ℕ
  | [] => none
  | (r, m) :: rest =>
    match bestUnmarked rest with
    | none => if m then none else some r
    | some b => if m then some b else some (max r b)

/-- Mark the first unmarked entry holding remainder value `b`. -/
def markFirst (b : ℕ) : List (ℕ × Bool) → List (ℕ × Bool)
  | [] => []
  | (r, m) :: rest =>
    if m then (r, m) :: markFirst b rest
    else if r = b then (r, true) :: rest
    else (r, m) :: markFirst b rest

/-- Modelled from the spec: one step of the remainder-ranked top-up of the
largest-remainder method (§4.3): the earliest candidate with the largest
remainder among those not yet topped up receives the next bonus seat
(descending remainder order with the stable, input-order tie-break). -/
def lrMarkStep (l : List (ℕ × Bool)) : List (ℕ × Bool) :=
  match bestUnmarked l with
  | none => l
  | some b => markFirst b l

/-- Number of entries already topped up. -/
def countMarked (l : List (ℕ × Bool)) : ℕ := (l.filter (·.2)).length

/-- Floor allocation of the largest-remainder method: with quota `num/den`, a
candidate with `v` votes holds `v / (num/den) = v·den/num` quota units and
receives the floor of that. -/
def lrFloors (num den : ℕ) (votes : List ℕ) : List ℕ :=
  votes.map (fun v => v * den / num)

/-- Initial top-up state of the largest-remainder method: each candidate's
fractional remainder is `(v·den mod num)/num`; the remainders share the
denominator `num`, so they are ranked by `v·den mod num`, and none is marked
as topped up yet. -/
def lrRems (num den : ℕ) (votes : List ℕ) : List (ℕ × Bool) :=
  votes.map (fun v => (v * den % num, false))

/-- Modelled from the spec: the `LargestRemainder` allocation (§4.3) at a
fixed quota `num/den`: floor allocation by the quota, then one bonus seat to
each of the `T − Σfloors` largest fractional remainders. -/
def lrAllocCore (num den : ℕ) (votes : List ℕ) (T : ℕ) : List ℕ :=
  ((lrFloors num den votes).zip
    (lrMarkStep^[T - (lrFloors num den votes).sum] (lrRems num den votes))).map
    (fun fm => fm.1 + if fm.2.2 then 1 else 0)

/-- Modelled from the spec: the `LargestRemainder` allocation (§4.3),
instantiating the quota from the configured quota function. -/
def lrAlloc (quota : ℕ → ℕ → ℕ × ℕ) (votes : List ℕ) (T : ℕ) : List ℕ :=
  lrAllocCore (quota votes.sum T).1 (quota votes.sum T).2 votes T

/-- Modelled from the spec: the `LargestRemainder` apportionment primitive
(§4.3), keyed by candidate; the engine source is not in the repo. -/
def lrEvaluate {κ : Type} (quota : ℕ → ℕ → ℕ × ℕ) (votes : List (κ × ℕ))
    (T : ℕ) : List (κ × ℕ) :=
  (votes.map Prod.fst).zip (lrAlloc quota (votes.map Prod.snd) T)

/-- Modelled from the spec: candidate identity (§3, §4.1) — a closed tagged
union of an atomic party and a composite coalition holding its ordered member
list; the engine source (`votelib.candidate`) is not in the repo.  Every
coalition in the notebooks is built from atomic `PoliticalParty` members, so
each member is identified here by its name. -/
inductive Candidate : Type where
  | atomic (name : String)
  | composite (name : String) (members : List String)
deriving DecidableEq

/-- Modelled from the spec: coalition member count, with an atomic candidate
counting as one member (§4.4). -/
def memberCount : Candidate → ℕ
  | .atomic _ => 1
  | .composite _ members => members.length

/-- Modelled from the spec: `RelativeThreshold(fraction, accept_equal)`
(§4.4); the engine source is not in the repo. -/
structure RelativeThreshold : Type where
  frac : ℚ
  acceptEqual : Bool

/-- Modelled from the spec: a relative threshold admits a candidate whose
votes/total reach the fraction — at least the fraction when `acceptEqual`,
strictly above it otherwise (§4.4). -/
def rtAdmits (rt : RelativeThreshold) (v V : ℕ) : Bool :=
  if rt.acceptEqual then decide (rt.frac ≤ mkRat v V)
  else decide (rt.frac < mkRat v V)

/-- Modelled from the spec: the `RelativeThreshold` evaluator returns the
admitted subset of candidates (§4.4). -/
def rtEvaluate {κ : Type} (rt : RelativeThreshold) (votes : List (κ × ℕ)) : List κ :=
  (votes.filter (fun p => rtAdmits rt p.2 (total votes))).map Prod.fst

/-- Bracket lookup by coalition member count. -/
def lookupBracket : List (ℕ × RelativeThreshold) → ℕ → Option RelativeThreshold
  | [], _ => none
  | (n, rt) :: rest, m => if n = m then some rt else lookupBracket rest m

/-- Modelled from the spec: `CoalitionMemberBracketer` dispatch — the
threshold evaluator chosen by the candidate's member count, falling back to
the default when no explicit bracket matches (§4.4). -/
def bracketFor (brackets : List (ℕ × RelativeThreshold)) (dflt : RelativeThreshold)
    (c : Candidate) : RelativeThreshold :=
  (lookupBracket brackets (memberCount c)).getD dflt

/-- Modelled from the spec: the `CoalitionMemberBracketer` evaluator — the
effective threshold is evaluated per candidate and the admitted results are
unioned (§4.4); the engine source is not in the repo. -/
def cmbEvaluate (brackets : List (ℕ × RelativeThreshold)) (dflt : RelativeThreshold)
    (votes : List (Candidate × ℕ)) : List Candidate :=
  (votes.filter (fun p => rtAdmits (bracketFor brackets dflt p.1) p.2 (total votes))).map
    Prod.fst

/-- Restriction of a vote mapping to an admitted candidate subset. -/
def restrictTo {κ : Type} [DecidableEq κ] (admitted : List κ)
    (votes : List (κ × ℕ)) : List (κ × ℕ) :=
  votes.filter (fun p => decide (p.1 ∈ admitted))

/-- Modelled from the spec and the notebooks: `Conditioned` runs the
predicate evaluator, restricts the vote mapping to the admitted subset and
delegates to the inner evaluator (§4.6).  As the Slovak notebook's printed
result shows (six admitted parties and no others in the output), candidates
removed by the predicate are absent from the delegated result. -/
def conditionedEval {κ : Type} [DecidableEq κ] (pred : List (κ × ℕ) → List κ)
    (inner : List (κ × ℕ) → ℕ → List (κ × ℕ)) (votes : List (κ × ℕ))
    (T : ℕ) : List (κ × ℕ) :=
  inner (restrictTo (pred votes) votes) T

/-- Modelled from the spec: `FixedSeatCount` freezes the total-seat parameter
passed to the inner evaluator (§4.6). -/
def fixedSeatCount {κ : Type} (inner : List (κ × ℕ) → ℕ → List (κ × ℕ))
    (T : ℕ) (votes : List (κ × ℕ)) : List (κ × ℕ) :=
  inner votes T

/-- Insert a value into a flat mapping, summing on key collision. -/
def upsert {κ : Type} [DecidableEq κ] : List (κ × ℕ) → κ → ℕ → List (κ × ℕ)
  | [], k, v => [(k, v)]
  | (k₀, v₀) :: rest, k, v =>
    if k₀ = k then (k₀, v₀ + v) :: rest else (k₀, v₀) :: upsert rest k v

/-- Merge one flat mapping into an accumulator, summing values per key. -/
def mergeInto {κ : Type} [DecidableEq κ] (acc m : List (κ × ℕ)) : List (κ × ℕ) :=
  m.foldl (fun a p => upsert a p.1 p.2) acc

/-- Sum a list of flat mappings into one, per candidate key. -/
def mergeAll {κ : Type} [DecidableEq κ] (ms : List (List (κ × ℕ))) : List (κ × ℕ) :=
  ms.foldl mergeInto []

/-- Modelled from the spec: `MergedDistributions` sums the values of a nested
mapping across all regions per candidate key into one flat mapping (§4.5);
the engine source is not in the repo. -/
def mergedDistributions {ρ κ : Type} [DecidableEq κ]
    (nested : List (ρ × List (κ × ℕ))) : List (κ × ℕ) :=
  mergeAll (nested.map Prod.snd)

/-- Modelled from the spec: `VoteTotals` collapses a nested vote mapping to a
flat one by summation, discarding the regional structure (§4.5). -/
def voteTotals {ρ κ : Type} [DecidableEq κ]
    (nested : List (ρ × List (κ × ℕ))) : List (κ × ℕ) :=
  mergeAll (nested.map Prod.snd)

/-- Leader scan for the plurality winner: keeps the earlier candidate on an
exact tie (stable input order). -/
def plBest {κ : Type} : List (κ × ℕ) → κ × ℕ → κ × ℕ
  | [], best => best
  | p :: rest, best => if best.2 < p.2 then plBest rest p else plBest rest best

/-- Modelled from the spec: single-winner plurality selection (`Plurality`
composed with `SelectionToDistribution`), returning the winner as a one-seat
distribution (§4.5, §4.6). -/
def pluralityDistribution {κ : Type} : List (κ × ℕ) → List (κ × ℕ)
  | [] => []
  | p :: rest => [((plBest rest p).1, 1)]

/-- Modelled from the spec: the first (constituency) round of the German MMP
evaluator — for each region, every constituency elects one winner by
plurality and the winners are merged into a per-region seat mapping
(`ByConstituency`/`PostConverted`/`MergedDistributions`, §4.5-§4.6). -/
def round1Eval {ρ ω κ : Type} [DecidableEq κ]
    (erst : List (ρ × List (ω × List (κ × ℕ)))) : List (ρ × List (κ × ℕ)) :=
  erst.map (fun lm => (lm.1, mergeAll (lm.2.map (fun wk => pluralityDistribution wk.2))))

/-- National vote totals of a once-nested vote mapping. -/
def natVotes {ρ κ : Type} [DecidableEq κ]
    (rv : List (ρ × List (κ × ℕ))) : List (κ × ℕ) :=
  mergeAll (rv.map Prod.snd)

/-- Regional votes of one party across all regions. -/
def partyRegionVotes {ρ κ : Type} [DecidableEq κ]
    (rv : List (ρ × List (κ × ℕ))) (p : κ) : List (ρ × ℕ) :=
  rv.map (fun rm => (rm.1, val rm.2 p))

/-- Modelled from the spec: `ByParty` redistributes each candidate's national
seat total among its regional lists in proportion to its regional votes,
using the allocator as a sub-apportionment within each candidate (§4.6); the
result is re-nested by region.  The allocator is the configured
highest-averages divisor evaluator (`prop_eval` in the notebook). -/
def byParty {ρ κ : Type} [DecidableEq ρ] [DecidableEq κ] (d : ℕ → ℕ)
    (overall : List (κ × ℕ)) (rv : List (ρ × List (κ × ℕ))) :
    List (ρ × List (κ × ℕ)) :=
  rv.map (fun rm =>
    (rm.1, overall.map (fun pn =>
      (pn.1, val (haEvaluate d (partyRegionVotes rv pn.1) pn.2) rm.1))))

/-- Mapping attached to a region key in a nested mapping (empty if the region
is absent). -/
def regionOf {ρ κ : Type} [DecidableEq ρ] :
    List (ρ × List (κ × ℕ)) → ρ → List (κ × ℕ)
  | [], _ => []
  | (r₀, m) :: rest, r => if r₀ = r then m else regionOf rest r

/-- Modelled from the spec: the probing condition of the overhang-leveling
state machine (§4.7) at a candidate total `t` — the national distribution is
evaluated at `t` by the overall (threshold + apportionment) evaluator and
spread over the regions per party; the probe succeeds when every region's
per-candidate allocation is at least that candidate's first-round
constituency-won seat count. -/
def levelProbe {ρ κ : Type} [DecidableEq ρ] [DecidableEq κ]
    (overallEval : List (κ × ℕ) → ℕ → List (κ × ℕ)) (d : ℕ → ℕ)
    (rv fixedSeats : List (ρ × List (κ × ℕ))) (t : ℕ) : Bool :=
  fixedSeats.all (fun rm =>
    rm.2.all (fun pw =>
      pw.2 ≤ val (regionOf (byParty d (overallEval (natVotes rv) t) rv) rm.1) pw.1))

/-- Modelled from the spec: the bounded fixed-point search of §4.7 — probe
increasing totals starting from the nominal one and stop at the first that
satisfies the probe, giving up when the fuel (iteration cap) runs out. -/
def levelSearch (probe : ℕ → Bool) : ℕ → ℕ → Option ℕ
  | _, 0 => none
  | t, fuel + 1 => if probe t then some t else levelSearch probe (t + 1) fuel

/-- Modelled from the spec: the error taxonomy entry for an overhang-leveling
search that exceeds its iteration cap (§7, NonConvergence). -/
inductive VotelibError : Type where
  | nonConvergence
deriving DecidableEq

/-- Modelled from the spec: `AdjustedSeatCount` with the
`LevelOverhangByConstituency` calculator (§4.7) — run the leveling search
from the nominal total `T` with iteration cap `cap`; on convergence at `t`,
return the final result of the wrapped evaluator (`ByParty` over the overall
evaluator) at the adjusted total `t`; otherwise report non-convergence. -/
def adjustedSeatCount {ρ κ : Type} [DecidableEq ρ] [DecidableEq κ]
    (overallEval : List (κ × ℕ) → ℕ → List (κ × ℕ)) (d : ℕ → ℕ)
    (rv fixedSeats : List (ρ × List (κ × ℕ))) (T cap : ℕ) :
    Except VotelibError (List (ρ × List (κ × ℕ))) :=
  match levelSearch (levelProbe overallEval d rv fixedSeats) T (cap + 1) with
  | some t => Except.ok (byParty d (overallEval (natVotes rv) t) rv)
  | none => Except.error VotelibError.nonConvergence

/-- Modelled from the spec: `PreConverted` summation of the second votes from
constituencies up to each region (`ByConstituency` of `VoteTotals`, §4.5). -/
def regionVoteTotals {ρ ω κ : Type} [DecidableEq κ]
    (zweit : List (ρ × List (ω × List (κ × ℕ)))) : List (ρ × List (κ × ℕ)) :=
  zweit.map (fun lm => (lm.1, voteTotals lm.2))

/-- Modelled from the spec: the two-round MMP evaluator of the German
notebook — a `MultistageDistributor` whose first stage evaluates the
constituency round and whose second stage, fed the per-region vote totals
(`PreConverted`/`VoteTotals`) and the first-round gains, adjusts the seat
count by overhang leveling and distributes it by party; the second (final)
stage's output is the distributor's result (§4.6-§4.7). -/
def mmpEvaluate {ρ ω κ : Type} [DecidableEq ρ] [DecidableEq κ]
    (overallEval : List (κ × ℕ) → ℕ → List (κ × ℕ)) (d : ℕ → ℕ)
    (erst zweit : List (ρ × List (ω × List (κ × ℕ)))) (T cap : ℕ) :
    Except VotelibError (List (ρ × List (κ × ℕ))) :=
  adjustedSeatCount overallEval d (regionVoteTotals zweit) (round1Eval erst) T cap

/-- Grand total of a nested seat mapping. -/
def grandTotal {ρ κ : Type} (nested : List (ρ × List (κ × ℕ))) : ℕ :=
  (nested.map (fun rm => total rm.2)).sum

/-! Concrete inputs recorded in the notebooks, plus a small mixed-member
instance with overhang used to exercise the composed evaluators. -/

/-- The 2017 census populations of the 16 German federal states, as loaded in
the German notebook (`land_inhab`). -/
def landInhab : List (String × ℕ) :=
  [("Schleswig-Holstein", 2673803), ("Hamburg", 1525090),
   ("Niedersachsen", 7278789), ("Bremen", 568510),
   ("Nordrhein-Westfalen", 15707569), ("Hessen", 5281198),
   ("Rheinland-Pfalz", 3661245), ("Baden-Württemberg", 9365001),
   ("Bayern", 11362245), ("Saarland", 899748), ("Berlin", 2975745),
   ("Brandenburg", 2391746), ("Mecklenburg-Vorpommern", 1548400),
   ("Sachsen", 3914671), ("Sachsen-Anhalt", 2145671),
   ("Thüringen", 2077901)]

/-- The per-state seat counts the German notebook prints for
`prop_eval.evaluate(land_inhab, 598)`. -/
def landSeats : List (String × ℕ) :=
  [("Schleswig-Holstein", 22), ("Hamburg", 12), ("Niedersachsen", 59),
   ("Bremen", 5), ("Nordrhein-Westfalen", 128), ("Hessen", 43),
   ("Rheinland-Pfalz", 30), ("Baden-Württemberg", 76), ("Bayern", 93),
   ("Saarland", 7), ("Berlin", 24), ("Brandenburg", 20),
   ("Mecklenburg-Vorpommern", 13), ("Sachsen", 32), ("Sachsen-Anhalt", 17),
   ("Thüringen", 17)]

/-- The Slovak notebook's 5 % single-party threshold (`standard_elim`). -/
def rt5 : RelativeThreshold := ⟨mkRat 5 100, true⟩

/-- The Slovak notebook's 7 % threshold for two- and three-member coalitions
(`mem_2_3_elim`). -/
def rt7 : RelativeThreshold := ⟨mkRat 7 100, true⟩

/-- The Slovak notebook's 10 % threshold for larger coalitions
(`mem_4plus_elim`). -/
def rt10 : RelativeThreshold := ⟨mkRat 1 10, true⟩

/-- The Slovak notebook's bracket mapping by coalition member count. -/
def skBrackets : List (ℕ × RelativeThreshold) := [(1, rt5), (2, rt7), (3, rt7)]

/-- The Slovak 2020 party-list votes as loaded in the Slovak notebook;
PS-SPOLU is the only two-member coalition on the ballot. -/
def skVotes : List (Candidate × ℕ) :=
  [(.atomic "OĽANO", 721166), (.atomic "Smer", 527172),
   (.atomic "Sme rodina", 237531), (.atomic "ĽSNS", 229660),
   (.composite "PS-SPOLU" ["Progresívne Slovensko", "SPOLU"], 200780),
   (.atomic "Sloboda a Solidarita", 179246), (.atomic "Za ľudí", 166325),
   (.atomic "Kresťanskodemokratické hnutie", 134099),
   (.atomic "MKÖ-MKS", 112662), (.atomic "SNS", 91171),
   (.atomic "Dobrá voľba", 88220), (.atomic "Vlasť", 84507),
   (.atomic "Most-Híd", 59174), (.atomic "Socialisti.sk", 15925),
   (.atomic "Máme toho dosť!", 9260),
   (.atomic "Slovenská ľudová strana Andreja Hlinku", 8191),
   (.atomic "Demokratická strana", 4194), (.atomic "Solidarita-HPCh", 3296),
   (.atomic "STAROSTOVIA A NEZÁVISLÍ KANDIDÁTI", 2018),
   (.atomic "Slovenské Hnutie Obrody", 1966), (.atomic "Hlas ľudu", 1887),
   (.atomic "Práca slovenského národa", 1261),
   (.atomic "99 % – občiansky hlas", 991), (.atomic "Slovenská liga", 809)]

/-- The Slovak notebook's full evaluator: the coalition-bracketed threshold
conditioning the Hagenbach-Bischoff-rounded largest-remainder evaluator,
with the seat count fixed at 150. -/
def skEvaluator (votes : List (Candidate × ℕ)) : List (Candidate × ℕ) :=
  fixedSeatCount
    (conditionedEval (cmbEvaluate skBrackets rt10)
      (lrEvaluate hagenbachBischoffRoundedQuota)) 150 votes

/-- A small national evaluator of the German shape: a 5 % relative threshold
conditioning a Sainte-Laguë highest-averages distribution. -/
def smallNatEval (votes : List (String × ℕ)) (T : ℕ) : List (String × ℕ) :=
  conditionedEval (rtEvaluate rt5) (haEvaluate sainteLague) votes T

/-- First votes of the small mixed-member instance: party A wins both
constituencies of region L1, party B wins the single constituency of L2. -/
def smallErst : List (String × List (String × List (String × ℕ))) :=
  [("L1", [("w1", [("A", 100), ("B", 50)]), ("w2", [("A", 100), ("B", 50)])]),
   ("L2", [("w3", [("A", 40), ("B", 60)])])]

/-- Second votes of the small mixed-member instance. -/
def smallZweit : List (String × List (String × List (String × ℕ))) :=
  [("L1", [("w1", [("A", 150), ("B", 350)]), ("w2", [("A", 150), ("B", 350)])]),
   ("L2", [("w3", [("A", 100), ("B", 900)])])]

/-- Per-region second-vote totals of the small mixed-member instance. -/
def smallRv : List (String × List (String × ℕ)) :=
  [("L1", [("A", 300), ("B", 700)]), ("L2", [("A", 100), ("B", 900)])]

/-- First-round constituency gains of the small mixed-member instance. -/
def smallFixed : List (String × List (String × ℕ)) :=
  [("L1", [("A", 2)]), ("L2", [("B", 1)])]

end Votelib

namespace Votelib

/-! Lemmas about the highest-averages primitive. -/

theorem haAlloc_add (d : ℕ → ℕ) (votes : List ℕ) (a b : ℕ) :
    haAlloc d votes (a + b) = haRoundN d votes b (haAlloc d votes a) := by
  induction b with
  | zero => rfl
  | succ k ih =>
    show haRound d votes (haAlloc d votes (a + k)) = _
    rw [ih]; rfl

theorem sum_set_succ (l : List ℕ) (i : ℕ) (h : i < l.length) :
    (l.set i (l.getD i 0 + 1)).sum = l.sum + 1 := by
  induction l generalizing i with
  | nil => simp at h
  | cons x xs ih =>
    cases i with
    | zero =>
      rw [List.getD_cons_zero, List.set_cons_zero, List.sum_cons, List.sum_cons]
      omega
    | succ j =>
      have hj : j < xs.length := by simpa using h
      rw [List.getD_cons_succ, List.set_cons_succ, List.sum_cons, List.sum_cons,
        ih j hj]
      omega

theorem crossLe {a b c e f g : ℕ} (he : 0 < e) (h12 : a * e ≤ c * b)
    (h23 : c * g ≤ f * e) : a * g ≤ f * b := by
  have h1 : a * g * e ≤ f * b * e := by
    calc a * g * e = (a * e) * g := by ring
      _ ≤ (c * b) * g := Nat.mul_le_mul_right _ h12
      _ = (c * g) * b := by ring
      _ ≤ (f * e) * b := Nat.mul_le_mul_right _ h23
      _ = f * b * e := by ring
  exact Nat.le_of_mul_le_mul_right h1 he

theorem haBestIdx_idx_lt (d : ℕ → ℕ) :
    ∀ (l : List (ℕ × ℕ)) (i : ℕ) (acc : ℕ × ℕ × ℕ), acc.1 < i →
      (haBestIdx d l i acc).1 < i + l.length := by
  intro l
  induction l with
  | nil =>
    intro i acc h
    simp only [haBestIdx, List.length_nil, Nat.add_zero]
    exact h
  | cons p rest ih =>
    rcases p with ⟨v, s⟩
    intro i acc h
    simp only [haBestIdx, List.length_cons]
    split
    · have := ih (i + 1) (i, v, d s) (Nat.lt_succ_self i)
      omega
    · have := ih (i + 1) acc (h.trans (Nat.lt_succ_self i))
      omega

theorem haBestIdx_spec (d : ℕ → ℕ) (hd : ∀ k, 0 < d k) :
    ∀ (l : List (ℕ × ℕ)) (i : ℕ) (acc : ℕ × ℕ × ℕ), 0 < acc.2.2 →
      0 < (haBestIdx d l i acc).2.2 ∧
      acc.2.1 * (haBestIdx d l i acc).2.2 ≤ (haBestIdx d l i acc).2.1 * acc.2.2 ∧
      ∀ e ∈ l, e.1 * (haBestIdx d l i acc).2.2 ≤ (haBestIdx d l i acc).2.1 * d e.2 := by
  intro l
  induction l with
  | nil =>
    intro i acc h
    simp only [haBestIdx]
    exact ⟨h, le_rfl, by simp⟩
  | cons p rest ih =>
    rcases p with ⟨v, s⟩
    intro i acc hacc
    simp only [haBestIdx]
    split
    · next hlt =>
      obtain ⟨ih1, ih2, ih3⟩ := ih (i + 1) (i, v, d s) (hd s)
      refine ⟨ih1, crossLe (hd s) (Nat.le_of_lt hlt) ih2, ?_⟩
      intro e he
      rcases List.mem_cons.mp he with rfl | hmem
      · exact ih2
      · exact ih3 e hmem
    · next hge =>
      obtain ⟨ih1, ih2, ih3⟩ := ih (i + 1) acc hacc
      refine ⟨ih1, ih2, ?_⟩
      intro e he
      rcases List.mem_cons.mp he with rfl | hmem
      · exact crossLe hacc (Nat.le_of_not_lt hge) ih2
      · exact ih3 e hmem

theorem mem_zip_left {α β : Type} {a : α} :
    ∀ {l₁ : List α} {l₂ : List β}, a ∈ l₁ → l₁.length = l₂.length →
      ∃ b, (a, b) ∈ l₁.zip l₂ := by
  intro l₁
  induction l₁ with
  | nil => intro l₂ h; simp at h
  | cons x xs ih =>
    intro l₂ hmem hlen
    cases l₂ with
    | nil => simp at hlen
    | cons y ys =>
      rcases List.mem_cons.mp hmem with rfl | hmem
      · exact ⟨y, List.mem_cons_self _ _⟩
      · obtain ⟨b, hb⟩ := ih hmem (by simpa using hlen)
        exact ⟨b, List.mem_cons_of_mem _ hb⟩

theorem haPick_divisor_pos (d : ℕ → ℕ) (hd : ∀ k, 0 < d k) (votes alloc : List ℕ) :
    0 < (haPick d votes alloc).2.2 := by
  cases votes with
  | nil => exact Nat.one_pos
  | cons v vs =>
    cases alloc with
    | nil => exact Nat.one_pos
    | cons s ss => exact (haBestIdx_spec d hd (vs.zip ss) 1 (0, v, d s) (hd s)).1

theorem haPick_votes_pos (d : ℕ → ℕ) (hd : ∀ k, 0 < d k) (votes alloc : List ℕ)
    (hlen : alloc.length = votes.length) (hex : ∃ v ∈ votes, 0 < v) :
    0 < (haPick d votes alloc).2.1 := by
  obtain ⟨v₀, hmem, hv₀⟩ := hex
  cases votes with
  | nil => simp at hmem
  | cons v vs =>
    cases alloc with
    | nil => simp at hlen
    | cons s ss =>
      obtain ⟨h1, h2, h3⟩ := haBestIdx_spec d hd (vs.zip ss) 1 (0, v, d s) (hd s)
      show 0 < (haBestIdx d (vs.zip ss) 1 (0, v, d s)).2.1
      have key : ∃ q, v₀ * (haBestIdx d (vs.zip ss) 1 (0, v, d s)).2.2 ≤
          (haBestIdx d (vs.zip ss) 1 (0, v, d s)).2.1 * q := by
        rcases List.mem_cons.mp hmem with rfl | hmem
        · exact ⟨d s, h2⟩
        · have hlen2 : vs.length = ss.length := by simpa using hlen.symm
          obtain ⟨b, hb⟩ := mem_zip_left hmem hlen2
          exact ⟨d b, h3 (v₀, b) hb⟩
      obtain ⟨q, hq⟩ := key
      have hpos : 0 < (haBestIdx d (vs.zip ss) 1 (0, v, d s)).2.1 * q :=
        lt_of_lt_of_le (Nat.mul_pos hv₀ h1) hq
      rcases Nat.eq_zero_or_pos (haBestIdx d (vs.zip ss) 1 (0, v, d s)).2.1 with hz | hp
      · rw [hz, Nat.zero_mul] at hpos
        exact absurd hpos (lt_irrefl 0)
      · exact hp

theorem haPick_idx_lt (d : ℕ → ℕ) (votes alloc : List ℕ)
    (hne : votes ≠ []) (hlen : alloc.length = votes.length) :
    (haPick d votes alloc).1 < votes.length := by
  cases votes with
  | nil => exact absurd rfl hne
  | cons v vs =>
    cases alloc with
    | nil => simp at hlen
    | cons s ss =>
      have h := haBestIdx_idx_lt d (vs.zip ss) 1 (0, v, d s) Nat.one_pos
      have hz : (vs.zip ss).length = vs.length := by
        rw [List.length_zip]
        have : ss.length = vs.length := by simpa using hlen
        omega
      simpa [hz, Nat.add_comm 1 vs.length] using h

theorem haRound_length (d : ℕ → ℕ) (votes alloc : List ℕ) :
    (haRound d votes alloc).length = alloc.length := by
  rw [haRound]
  split
  · rfl
  · exact List.length_set ..

theorem haRound_sum (d : ℕ → ℕ) (hd : ∀ k, 0 < d k) (votes alloc : List ℕ)
    (hlen : alloc.length = votes.length) (hex : ∃ v ∈ votes, 0 < v) :
    (haRound d votes alloc).sum = alloc.sum + 1 := by
  have hv := haPick_votes_pos d hd votes alloc hlen hex
  have hne : votes ≠ [] := by
    obtain ⟨v₀, hmem, _⟩ := hex
    exact List.ne_nil_of_mem hmem
  have hidx := haPick_idx_lt d votes alloc hne hlen
  rw [haRound]
  split
  · omega
  · exact sum_set_succ alloc _ (hlen ▸ hidx)

theorem haAlloc_length (d : ℕ → ℕ) (votes : List ℕ) :
    ∀ T, (haAlloc d votes T).length = votes.length := by
  intro T
  induction T with
  | zero => exact List.length_replicate ..
  | succ k ih => rw [show haAlloc d votes (k + 1) =
      haRound d votes (haAlloc d votes k) from rfl, haRound_length, ih]

theorem haAlloc_sum (d : ℕ → ℕ) (hd : ∀ k, 0 < d k) (votes : List ℕ)
    (hex : ∃ v ∈ votes, 0 < v) : ∀ T, (haAlloc d votes T).sum = T := by
  intro T
  induction T with
  | zero => simp [haAlloc]
  | succ k ih =>
    rw [show haAlloc d votes (k + 1) = haRound d votes (haAlloc d votes k) from rfl,
      haRound_sum d hd votes _ (haAlloc_length d votes k) hex, ih]

theorem total_zip {κ : Type} (l₁ : List κ) (l₂ : List ℕ)
    (h : l₁.length = l₂.length) : total (l₁.zip l₂) = l₂.sum := by
  rw [total, List.map_snd_zip l₁ l₂ h.ge]

theorem haEvaluate_keys {κ : Type} (d : ℕ → ℕ) (votes : List (κ × ℕ)) (T : ℕ) :
    (haEvaluate d votes T).map Prod.fst = votes.map Prod.fst := by
  rw [haEvaluate, List.map_fst_zip]
  rw [haAlloc_length, List.length_map, List.length_map]

theorem haEvaluate_total (d : ℕ → ℕ) {κ : Type} (hd : ∀ k, 0 < d k)
    (votes : List (κ × ℕ)) (T : ℕ) (hex : ∃ p ∈ votes, 0 < p.2) :
    total (haEvaluate d votes T) = T := by
  rw [haEvaluate, total_zip]
  · apply haAlloc_sum d hd
    obtain ⟨p, hmem, hp⟩ := hex
    exact ⟨p.2, List.mem_map_of_mem Prod.snd hmem, hp⟩
  · rw [haAlloc_length, List.length_map, List.length_map]

theorem haEvaluate_total_zero {κ : Type} (d : ℕ → ℕ) (votes : List (κ × ℕ)) :
    total (haEvaluate d votes 0) = 0 := by
  rw [haEvaluate, total_zip]
  · simp [haAlloc]
  · rw [haAlloc_length, List.length_map, List.length_map]

/-! Lemmas about the largest-remainder primitive. -/

theorem mulSub (a b c : ℕ) : a * (b - c) = a * b - a * c := by
  rcases Nat.le_total c b with h | h
  · obtain ⟨e, rfl⟩ := Nat.exists_eq_add_of_le h
    rw [Nat.add_sub_cancel_left, Nat.mul_add, Nat.add_sub_cancel_left]
  · rw [Nat.sub_eq_zero_of_le h, Nat.mul_zero,
      Nat.sub_eq_zero_of_le (Nat.mul_le_mul_left a h)]

theorem markFirst_fst (b : ℕ) :
    ∀ l : List (ℕ × Bool), (markFirst b l).map Prod.fst = l.map Prod.fst := by
  intro l
  induction l with
  | nil => rfl
  | cons p rest ih =>
    rcases p with ⟨r, m⟩
    simp only [markFirst]
    split
    · simp [ih]
    · split
      · simp
      · simp [ih]

theorem lrMarkStep_fst (l : List (ℕ × Bool)) :
    (lrMarkStep l).map Prod.fst = l.map Prod.fst := by
  rw [lrMarkStep]
  split
  · rfl
  · exact markFirst_fst _ l

theorem lrMarkStep_length (l : List (ℕ × Bool)) :
    (lrMarkStep l).length = l.length := by
  have h := lrMarkStep_fst l
  have := congrArg List.length h
  simpa using this

theorem lrMarkStep_iterate_length (R : ℕ) (l : List (ℕ × Bool)) :
    (lrMarkStep^[R] l).length = l.length := by
  induction R generalizing l with
  | zero => rfl
  | succ k ih => rw [Function.iterate_succ_apply, ih, lrMarkStep_length]

theorem bestUnmarked_eq_none :
    ∀ l : List (ℕ × Bool), bestUnmarked l = none ↔ ∀ e ∈ l, e.2 = true := by
  intro l
  induction l with
  | nil => simp [bestUnmarked]
  | cons p rest ih =>
    rcases p with ⟨r, m⟩
    simp only [bestUnmarked]
    cases hrec : bestUnmarked rest with
    | none =>
      cases m with
      | false => simp [ih.mp hrec]
      | true => simp only [if_pos rfl]; simpa using ih.mp hrec
    | some b =>
      have hne : ¬ ∀ e ∈ rest, e.2 = true := by
        intro hall
        rw [ih.mpr hall] at hrec
        exact Option.noConfusion hrec
      constructor
      · intro h
        cases m with
        | false => simp at h
        | true => simp at h
      · intro hall
        exact absurd (fun e he => hall e (List.mem_cons_of_mem _ he)) hne

theorem bestUnmarked_some_mem :
    ∀ {l : List (ℕ × Bool)} {b : ℕ}, bestUnmarked l = some b → (b, false) ∈ l := by
  intro l
  induction l with
  | nil => intro b h; exact Option.noConfusion h
  | cons p rest ih =>
    rcases p with ⟨r, m⟩
    intro b h
    simp only [bestUnmarked] at h
    rcases hrec : bestUnmarked rest with _ | c
    · rw [hrec] at h
      cases m with
      | false =>
        simp at h
        exact h ▸ List.mem_cons_self _ _
      | true => simp at h
    · rw [hrec] at h
      cases m with
      | false =>
        simp at h
        rcases Nat.le_total r c with hrc | hcr
        · rw [Nat.max_eq_right hrc] at h
          exact List.mem_cons_of_mem _ (h ▸ ih hrec)
        · rw [Nat.max_eq_left hcr] at h
          exact h ▸ List.mem_cons_self _ _
      | true =>
        simp at h
        exact List.mem_cons_of_mem _ (h ▸ ih hrec)

theorem countMarked_cons (p : ℕ × Bool) (rest : List (ℕ × Bool)) :
    countMarked (p :: rest) = (if p.2 then 1 else 0) + countMarked rest := by
  cases hp : p.2 with
  | false => simp [countMarked, List.filter_cons, hp]
  | true =>
    simp [countMarked, List.filter_cons, hp]
    omega

theorem markFirst_count (b : ℕ) :
    ∀ l : List (ℕ × Bool), (b, false) ∈ l →
      countMarked (markFirst b l) = countMarked l + 1 := by
  intro l
  induction l with
  | nil => intro h; simp at h
  | cons p rest ih =>
    rcases p with ⟨r, m⟩
    intro hmem
    cases m with
    | false =>
      by_cases hr : r = b
      · have heq : markFirst b ((r, false) :: rest) = (r, true) :: rest := by
          simp [markFirst, hr]
        rw [heq, countMarked_cons, countMarked_cons]
        simp
        omega
      · have heq : markFirst b ((r, false) :: rest) =
            (r, false) :: markFirst b rest := by
          simp [markFirst, hr]
        have hmem2 : (b, false) ∈ rest := by
          rcases List.mem_cons.mp hmem with heq2 | h
          · exact absurd (congrArg Prod.fst heq2).symm hr
          · exact h
        rw [heq, countMarked_cons, countMarked_cons, ih hmem2]
        simp
    | true =>
      have heq : markFirst b ((r, true) :: rest) =
          (r, true) :: markFirst b rest := by
        simp [markFirst]
      have hmem2 : (b, false) ∈ rest := by
        rcases List.mem_cons.mp hmem with heq2 | h
        · exact absurd (congrArg Prod.snd heq2) (by simp)
        · exact h
      rw [heq, countMarked_cons, countMarked_cons, ih hmem2]
      simp
      omega

theorem countMarked_step (l : List (ℕ × Bool)) (h : ∃ e ∈ l, e.2 = false) :
    countMarked (lrMarkStep l) = countMarked l + 1 := by
  rw [lrMarkStep]
  cases hb : bestUnmarked l with
  | none =>
    obtain ⟨e, hmem, he⟩ := h
    have := (bestUnmarked_eq_none l).mp hb e hmem
    rw [this] at he
    exact Bool.noConfusion he
  | some b => exact markFirst_count b l (bestUnmarked_some_mem hb)

theorem countMarked_le (l : List (ℕ × Bool)) : countMarked l ≤ l.length :=
  List.length_filter_le _ l

theorem exists_unmarked_of_lt (l : List (ℕ × Bool))
    (h : countMarked l < l.length) : ∃ e ∈ l, e.2 = false := by
  by_contra hno
  push_neg at hno
  have hall : ∀ e ∈ l, e.2 = true := by
    intro e he
    cases he2 : e.2 with
    | false => exact absurd he2 (hno e he)
    | true => rfl
  have heq : l.filter (·.2) = l := List.filter_eq_self.mpr (fun e he => by
    simpa using hall e he)
  rw [countMarked, heq] at h
  exact absurd h (lt_irrefl _)

theorem countMarked_iterate (R : ℕ) :
    ∀ l : List (ℕ × Bool), countMarked l + R ≤ l.length →
      countMarked (lrMarkStep^[R] l) = countMarked l + R := by
  induction R with
  | zero => intro l _; rfl
  | succ k ih =>
    intro l hle
    rw [Function.iterate_succ_apply]
    have hlt : countMarked l < l.length := by omega
    have hstep := countMarked_step l (exists_unmarked_of_lt l hlt)
    have hlen : (lrMarkStep l).length = l.length := lrMarkStep_length l
    rw [ih (lrMarkStep l) (by omega), hstep]
    omega

theorem countMarked_lrRems (num den : ℕ) (votes : List ℕ) :
    countMarked (lrRems num den votes) = 0 := by
  induction votes with
  | nil => rfl
  | cons v rest ih =>
    rw [lrRems, List.map_cons, countMarked_cons]
    simpa [lrRems] using ih

theorem zip_bonus_sum :
    ∀ (fs : List ℕ) (ms : List (ℕ × Bool)), fs.length = ms.length →
      ((fs.zip ms).map (fun fm => fm.1 + if fm.2.2 then 1 else 0)).sum =
        fs.sum + countMarked ms := by
  intro fs
  induction fs with
  | nil =>
    intro ms h
    have : ms = [] := List.eq_nil_of_length_eq_zero (by simpa using h.symm)
    subst this
    rfl
  | cons f fs ih =>
    intro ms h
    cases ms with
    | nil => simp at h
    | cons m ms' =>
      rw [List.zip_cons_cons, List.map_cons, List.sum_cons,
        ih ms' (by simpa using h), List.sum_cons, countMarked_cons]
      cases hm : m.2 with
      | false =>
        simp [hm]
        omega
      | true =>
        simp [hm]
        omega

theorem sum_div_mul_le (l : List ℕ) (m : ℕ) : ((l.map (· / m)).sum) * m ≤ l.sum := by
  induction l with
  | nil => simp
  | cons x xs ih =>
    rw [List.map_cons, List.sum_cons, List.sum_cons, Nat.add_mul]
    exact Nat.add_le_add (Nat.div_mul_le_self x m) ih

theorem sum_div_add_mod (l : List ℕ) (m : ℕ) :
    m * ((l.map (· / m)).sum) + (l.map (· % m)).sum = l.sum := by
  induction l with
  | nil => simp
  | cons x xs ih =>
    rw [List.map_cons, List.sum_cons, List.map_cons, List.sum_cons, List.sum_cons,
      Nat.mul_add]
    have hx := Nat.div_add_mod x m
    omega

theorem sum_map_mul (l : List ℕ) (a : ℕ) : (l.map (· * a)).sum = l.sum * a := by
  induction l with
  | nil => simp
  | cons x xs ih =>
    rw [List.map_cons, List.sum_cons, List.sum_cons, Nat.add_mul, ih]

theorem lrFloors_length (num den : ℕ) (votes : List ℕ) :
    (lrFloors num den votes).length = votes.length := List.length_map ..

theorem lrRems_length (num den : ℕ) (votes : List ℕ) :
    (lrRems num den votes).length = votes.length := List.length_map ..

theorem lrAllocCore_sum (num den : ℕ) (votes : List ℕ) (T : ℕ)
    (hfloor : (lrFloors num den votes).sum ≤ T)
    (hR : T - (lrFloors num den votes).sum < votes.length) :
    (lrAllocCore num den votes T).sum = T := by
  rw [lrAllocCore, zip_bonus_sum _ _
    (by rw [lrFloors_length, lrMarkStep_iterate_length, lrRems_length])]
  rw [countMarked_iterate _ _ (by rw [countMarked_lrRems, lrRems_length]; omega),
    countMarked_lrRems]
  omega

theorem lrAllocCore_length (num den : ℕ) (votes : List ℕ) (T : ℕ) :
    (lrAllocCore num den votes T).length = votes.length := by
  rw [lrAllocCore, List.length_map, List.length_zip, lrFloors_length,
    lrMarkStep_iterate_length, lrRems_length, Nat.min_self]

theorem lrAlloc_length (quota : ℕ → ℕ → ℕ × ℕ) (votes : List ℕ) (T : ℕ) :
    (lrAlloc quota votes T).length = votes.length := lrAllocCore_length ..

theorem lrAlloc_hare_sum (votes : List ℕ) (T : ℕ) (hV : 0 < votes.sum) :
    (lrAlloc hareQuota votes T).sum = T := by
  have hn : 0 < votes.length := by
    cases votes with
    | nil => simp at hV
    | cons x xs => simp
  have hfl : lrFloors votes.sum T votes = (votes.map (· * T)).map (· / votes.sum) := by
    rw [lrFloors, List.map_map]
    rfl
  have hsum : (votes.map (· * T)).sum = votes.sum * T := sum_map_mul votes T
  have hfloor : (lrFloors votes.sum T votes).sum ≤ T := by
    have h1 := sum_div_mul_le (votes.map (· * T)) votes.sum
    rw [hsum] at h1
    rw [hfl]
    have h2 : ((votes.map (· * T)).map (· / votes.sum)).sum * votes.sum ≤
        T * votes.sum := by
      calc ((votes.map (· * T)).map (· / votes.sum)).sum * votes.sum ≤
          votes.sum * T := h1
        _ = T * votes.sum := Nat.mul_comm _ _
    exact Nat.le_of_mul_le_mul_right h2 hV
  have hR : T - (lrFloors votes.sum T votes).sum < votes.length := by
    by_contra hge
    push_neg at hge
    have hTge : (lrFloors votes.sum T votes).sum + votes.length ≤ T := by omega
    have hmods := sum_div_add_mod (votes.map (· * T)) votes.sum
    rw [hsum, ← hfl] at hmods
    have hb : ((votes.map (· * T)).map (· % votes.sum)).sum ≤
        votes.length * votes.sum - votes.length := by
      have := List.sum_le_card_nsmul ((votes.map (· * T)).map (· % votes.sum))
        (votes.sum - 1) (by
          intro x hx
          obtain ⟨y, _, rfl⟩ := List.mem_map.mp hx
          have := Nat.mod_lt y hV
          omega)
      rw [List.length_map, List.length_map, smul_eq_mul, mulSub] at this
      simpa using this
    have hY : votes.sum * (lrFloors votes.sum T votes).sum +
        votes.sum * votes.length ≤ votes.sum * T := by
      rw [← Nat.mul_add]
      exact Nat.mul_le_mul_left _ hTge
    rw [← hmods] at hY
    have hD : votes.sum * votes.length ≤
        ((votes.map (· * T)).map (· % votes.sum)).sum :=
      Nat.le_of_add_le_add_left hY
    rw [Nat.mul_comm votes.sum votes.length] at hD
    have hbound : votes.length ≤ votes.length * votes.sum := by
      have := Nat.mul_le_mul_left votes.length hV
      simpa using this
    omega
  exact lrAllocCore_sum _ _ _ _ hfloor hR

theorem lrEvaluate_total_hare {κ : Type} (votes : List (κ × ℕ)) (T : ℕ)
    (hV : 0 < total votes) : total (lrEvaluate hareQuota votes T) = T := by
  rw [lrEvaluate, total_zip _ _
    (by rw [lrAlloc_length, List.length_map, List.length_map])]
  exact lrAlloc_hare_sum _ _ hV

theorem lrEvaluate_keys {κ : Type} (quota : ℕ → ℕ → ℕ × ℕ)
    (votes : List (κ × ℕ)) (T : ℕ) :
    (lrEvaluate quota votes T).map Prod.fst = votes.map Prod.fst := by
  rw [lrEvaluate, List.map_fst_zip]
  rw [lrAlloc_length, List.length_map, List.length_map]

/-! Lemmas about mapping values and merged distributions. -/

theorem val_nil {κ : Type} [DecidableEq κ] (x : κ) : val ([] : List (κ × ℕ)) x = 0 :=
  rfl

theorem val_cons {κ : Type} [DecidableEq κ] (k₀ : κ) (v₀ : ℕ)
    (rest : List (κ × ℕ)) (x : κ) :
    val ((k₀, v₀) :: rest) x = (if k₀ = x then v₀ else 0) + val rest x := rfl

theorem val_eq_zero_of_not_mem {κ : Type} [DecidableEq κ] :
    ∀ (m : List (κ × ℕ)) (x : κ), x ∉ m.map Prod.fst → val m x = 0 := by
  intro m
  induction m with
  | nil => intro x _; rfl
  | cons p rest ih =>
    rcases p with ⟨k, v⟩
    intro x hx
    rw [val_cons, ih x (fun h => hx (List.mem_cons_of_mem _ h)),
      if_neg (fun h => hx (by simp [h]))]

theorem val_append {κ : Type} [DecidableEq κ] (m₁ m₂ : List (κ × ℕ)) (x : κ) :
    val (m₁ ++ m₂) x = val m₁ x + val m₂ x := by
  induction m₁ with
  | nil => simp [val_nil]
  | cons p rest ih =>
    rcases p with ⟨k, v⟩
    rw [List.cons_append, val_cons, val_cons, ih]
    omega

theorem val_flatten {κ : Type} [DecidableEq κ] (ms : List (List (κ × ℕ))) (x : κ) :
    val ms.flatten x = (ms.map (fun m => val m x)).sum := by
  induction ms with
  | nil => rfl
  | cons m rest ih =>
    rw [List.flatten_cons, val_append, List.map_cons, List.sum_cons, ih]

theorem val_upsert {κ : Type} [DecidableEq κ] :
    ∀ (acc : List (κ × ℕ)) (k : κ) (v : ℕ) (x : κ),
      val (upsert acc k v) x = val acc x + (if k = x then v else 0) := by
  intro acc
  induction acc with
  | nil =>
    intro k v x
    rw [upsert, val_cons, val_nil]
    omega
  | cons p rest ih =>
    rcases p with ⟨k₀, v₀⟩
    intro k v x
    rw [upsert]
    split
    · next heq =>
      subst heq
      rw [val_cons, val_cons]
      by_cases hx : k₀ = x
      · simp only [if_pos hx]
        omega
      · simp only [if_neg hx]
        omega
    · next hne =>
      rw [val_cons, val_cons, ih]
      omega

theorem val_mergeInto {κ : Type} [DecidableEq κ] :
    ∀ (m acc : List (κ × ℕ)) (x : κ),
      val (mergeInto acc m) x = val acc x + val m x := by
  intro m
  induction m with
  | nil =>
    intro acc x
    rw [mergeInto, List.foldl_nil, val_nil]
    omega
  | cons p rest ih =>
    intro acc x
    rw [mergeInto, List.foldl_cons, ← mergeInto, ih, val_upsert, val_cons]
    by_cases hx : p.1 = x
    · simp only [if_pos hx]
      omega
    · simp only [if_neg hx]
      omega

theorem val_mergeAll_aux {κ : Type} [DecidableEq κ] :
    ∀ (ms : List (List (κ × ℕ))) (acc : List (κ × ℕ)) (x : κ),
      val (ms.foldl mergeInto acc) x = val acc x + (ms.map (fun m => val m x)).sum := by
  intro ms
  induction ms with
  | nil => intro acc x; simp
  | cons m rest ih =>
    intro acc x
    rw [List.foldl_cons, ih, val_mergeInto, List.map_cons, List.sum_cons]
    omega

theorem val_mergeAll {κ : Type} [DecidableEq κ] (ms : List (List (κ × ℕ))) (x : κ) :
    val (mergeAll ms) x = (ms.map (fun m => val m x)).sum := by
  rw [mergeAll, val_mergeAll_aux, val_nil, Nat.zero_add]

theorem val_mergedDistributions {ρ κ : Type} [DecidableEq κ]
    (nested : List (ρ × List (κ × ℕ))) (x : κ) :
    val (mergedDistributions nested) x =
      ((nested.map Prod.snd).map (fun m => val m x)).sum := by
  rw [mergedDistributions, val_mergeAll]

/-! Lemmas about thresholds and conditioning. -/

theorem mkRat_le_iff (a b v V : ℕ) (hb : 0 < b) (hV : 0 < V) :
    (mkRat a b ≤ mkRat v V) ↔ a * V ≤ v * b := by
  have hb' : (0 : ℚ) < (b : ℚ) := by exact_mod_cast hb
  have hV' : (0 : ℚ) < (V : ℚ) := by exact_mod_cast hV
  rw [Rat.mkRat_eq_div, Rat.mkRat_eq_div, div_le_div_iff₀ hb' hV']
  constructor
  · intro h
    exact_mod_cast h
  · intro h
    exact_mod_cast h

theorem mem_eq_of_nodup_keys {κ β : Type} :
    ∀ {l : List (κ × β)} {q p : κ × β}, (l.map Prod.fst).Nodup →
      q ∈ l → p ∈ l → q.1 = p.1 → q = p := by
  intro l
  induction l with
  | nil => intro q p _ hq _ _; simp at hq
  | cons r rest ih =>
    intro q p hnd hq hp hqp
    rw [List.map_cons, List.nodup_cons] at hnd
    rcases List.mem_cons.mp hq with rfl | hq2
    · rcases List.mem_cons.mp hp with rfl | hp2
      · rfl
      · refine absurd ?_ hnd.1
        rw [hqp]
        exact List.mem_map_of_mem Prod.fst hp2
    · rcases List.mem_cons.mp hp with rfl | hp2
      · refine absurd ?_ hnd.1
        rw [← hqp]
        exact List.mem_map_of_mem Prod.fst hq2
      · exact ih hnd.2 hq2 hp2 hqp

theorem conditioned_absent {κ : Type} [DecidableEq κ]
    (pred : List (κ × ℕ) → List κ) (inner : List (κ × ℕ) → ℕ → List (κ × ℕ))
    (votes : List (κ × ℕ)) (T : ℕ) (c : κ)
    (hkeys : ∀ (vs : List (κ × ℕ)) (n : ℕ),
      (inner vs n).map Prod.fst ⊆ vs.map Prod.fst)
    (hc : c ∉ pred votes) :
    c ∉ (conditionedEval pred inner votes T).map Prod.fst := by
  intro hmem
  have hsub := hkeys (restrictTo (pred votes) votes) T hmem
  obtain ⟨q, hq, rfl⟩ := List.mem_map.mp hsub
  have hfil := List.mem_filter.mp hq
  exact hc (by simpa using hfil.2)

/-! Lemmas about the by-party redistribution and the leveling search. -/

theorem total_cons {κ : Type} (p : κ × ℕ) (rest : List (κ × ℕ)) :
    total (p :: rest) = p.2 + total rest := rfl

theorem sum_map_add {α : Type} (l : List α) (f g : α → ℕ) :
    (l.map (fun a => f a + g a)).sum = (l.map f).sum + (l.map g).sum := by
  induction l with
  | nil => rfl
  | cons a rest ih =>
    rw [List.map_cons, List.sum_cons, ih, List.map_cons, List.sum_cons,
      List.map_cons, List.sum_cons]
    omega

theorem sum_map_swap {α β : Type} (l₁ : List α) (l₂ : List β) (f : α → β → ℕ) :
    (l₁.map (fun a => (l₂.map (f a)).sum)).sum =
      (l₂.map (fun b => (l₁.map (fun a => f a b)).sum)).sum := by
  induction l₁ with
  | nil => simp
  | cons a rest ih =>
    simp only [List.map_cons, List.sum_cons]
    rw [ih]
    exact (sum_map_add l₂ (fun b => f a b)
      (fun b => (rest.map (fun a => f a b)).sum)).symm

theorem total_map_row {π : Type} (overall : List (π × ℕ)) (g : π × ℕ → ℕ) :
    total (overall.map (fun pn => (pn.1, g pn))) = (overall.map g).sum := by
  rw [total, List.map_map]
  rfl

theorem val_map_row {π : Type} [DecidableEq π] (g : π × ℕ → ℕ) :
    ∀ (overall : List (π × ℕ)), (overall.map Prod.fst).Nodup →
      ∀ pn ∈ overall, val (overall.map (fun q => (q.1, g q))) pn.1 = g pn := by
  intro overall
  induction overall with
  | nil => intro _ pn h; simp at h
  | cons q rest ih =>
    intro hnd pn hmem
    rw [List.map_cons, List.nodup_cons] at hnd
    rw [List.map_cons, val_cons]
    have hkeys : (rest.map (fun q => (q.1, g q))).map Prod.fst =
        rest.map Prod.fst := by
      rw [List.map_map]
      rfl
    rcases List.mem_cons.mp hmem with rfl | hmem2
    · rw [if_pos rfl]
      have hz : val (rest.map (fun q => (q.1, g q))) pn.1 = 0 := by
        apply val_eq_zero_of_not_mem
        rw [hkeys]
        exact hnd.1
      omega
    · have hne : q.1 ≠ pn.1 := by
        intro heq
        exact hnd.1 (heq ▸ List.mem_map_of_mem Prod.fst hmem2)
      rw [if_neg hne, ih hnd.2 pn hmem2]
      omega

theorem sum_val_of_keys {ρ : Type} [DecidableEq ρ] :
    ∀ (m : List (ρ × ℕ)), (m.map Prod.fst).Nodup →
      ((m.map Prod.fst).map (fun r => val m r)).sum = total m := by
  intro m
  induction m with
  | nil =>
    intro _
    rfl
  | cons p rest ih =>
    intro hnd
    rw [List.map_cons, List.nodup_cons] at hnd
    rw [List.map_cons, List.map_cons, List.sum_cons, val_cons, if_pos rfl,
      val_eq_zero_of_not_mem rest p.1 hnd.1]
    have hcongr : (rest.map Prod.fst).map (fun r => val (p :: rest) r) =
        (rest.map Prod.fst).map (fun r => val rest r) := by
      apply List.map_congr_left
      intro r hr
      rw [val_cons, if_neg (fun h => hnd.1 (by rw [h]; exact hr))]
      omega
    rw [hcongr, ih hnd.2, total_cons]
    omega

theorem partyAlloc_region_sum {ρ π : Type} [DecidableEq ρ] [DecidableEq π]
    (d : ℕ → ℕ) (hd : ∀ k, 0 < d k) (rv : List (ρ × List (π × ℕ)))
    (hndR : (rv.map Prod.fst).Nodup) (p : π) (n : ℕ)
    (hpos : 0 < n → ∃ rm ∈ rv, 0 < val rm.2 p) :
    (rv.map (fun rm => val (haEvaluate d (partyRegionVotes rv p) n) rm.1)).sum
      = n := by
  have hkeys : (haEvaluate d (partyRegionVotes rv p) n).map Prod.fst =
      rv.map Prod.fst := by
    rw [haEvaluate_keys, partyRegionVotes, List.map_map]
    rfl
  have hmaps : rv.map (fun rm => val (haEvaluate d (partyRegionVotes rv p) n) rm.1)
      = (rv.map Prod.fst).map (fun r => val (haEvaluate d (partyRegionVotes rv p) n) r) := by
    rw [List.map_map]
    rfl
  rw [hmaps, ← hkeys, sum_val_of_keys _ (by rw [hkeys]; exact hndR)]
  rcases Nat.eq_zero_or_pos n with rfl | hn
  · exact haEvaluate_total_zero ..
  · obtain ⟨rm, hrm, hv⟩ := hpos hn
    apply haEvaluate_total d hd
    refine ⟨(rm.1, val rm.2 p), ?_, hv⟩
    rw [partyRegionVotes]
    exact List.mem_map_of_mem _ hrm

theorem byParty_party_total {ρ π : Type} [DecidableEq ρ] [DecidableEq π]
    (d : ℕ → ℕ) (hd : ∀ k, 0 < d k) (overall : List (π × ℕ))
    (rv : List (ρ × List (π × ℕ))) (hndP : (overall.map Prod.fst).Nodup)
    (hndR : (rv.map Prod.fst).Nodup) (pn : π × ℕ) (hmem : pn ∈ overall)
    (hpos : 0 < pn.2 → ∃ rm ∈ rv, 0 < val rm.2 pn.1) :
    ((byParty d overall rv).map (fun rm => val rm.2 pn.1)).sum = pn.2 := by
  rw [byParty, List.map_map]
  have hrow : rv.map ((fun rm : ρ × List (π × ℕ) => val rm.2 pn.1) ∘
      (fun rm => (rm.1, overall.map (fun q =>
        (q.1, val (haEvaluate d (partyRegionVotes rv q.1) q.2) rm.1)))))
      = rv.map (fun rm =>
          val (haEvaluate d (partyRegionVotes rv pn.1) pn.2) rm.1) := by
    apply List.map_congr_left
    intro rm _
    exact val_map_row _ overall hndP pn hmem
  rw [hrow]
  exact partyAlloc_region_sum d hd rv hndR pn.1 pn.2 hpos

theorem byParty_grandTotal {ρ π : Type} [DecidableEq ρ] [DecidableEq π]
    (d : ℕ → ℕ) (hd : ∀ k, 0 < d k) (overall : List (π × ℕ))
    (rv : List (ρ × List (π × ℕ))) (hndR : (rv.map Prod.fst).Nodup)
    (hpos : ∀ pn ∈ overall, 0 < pn.2 → ∃ rm ∈ rv, 0 < val rm.2 pn.1) :
    grandTotal (byParty d overall rv) = total overall := by
  rw [grandTotal, byParty, List.map_map]
  have hrow : rv.map ((fun rm : ρ × List (π × ℕ) => total rm.2) ∘
      (fun rm => (rm.1, overall.map (fun q =>
        (q.1, val (haEvaluate d (partyRegionVotes rv q.1) q.2) rm.1)))))
      = rv.map (fun rm => (overall.map (fun q =>
          val (haEvaluate d (partyRegionVotes rv q.1) q.2) rm.1)).sum) := by
    apply List.map_congr_left
    intro rm _
    exact total_map_row overall _
  rw [hrow, sum_map_swap rv overall (fun rm q =>
    val (haEvaluate d (partyRegionVotes rv q.1) q.2) rm.1)]
  have hparty : overall.map (fun q =>
      (rv.map (fun rm => val (haEvaluate d (partyRegionVotes rv q.1) q.2) rm.1)).sum)
      = overall.map (fun q => q.2) := by
    apply List.map_congr_left
    intro q hq
    exact partyAlloc_region_sum d hd rv hndR q.1 q.2 (hpos q hq)
  rw [hparty]
  rfl

theorem bool_eq_false {b : Bool} (h : ¬ b = true) : b = false := by
  cases b with
  | false => rfl
  | true => exact absurd rfl h

theorem levelSearch_some (probe : ℕ → Bool) :
    ∀ (fuel t u : ℕ), levelSearch probe t fuel = some u →
      probe u = true ∧ t ≤ u ∧ u < t + fuel ∧
      ∀ w, t ≤ w → w < u → probe w = false := by
  intro fuel
  induction fuel with
  | zero => intro t u h; exact Option.noConfusion h
  | succ k ih =>
    intro t u h
    simp only [levelSearch] at h
    by_cases hp : probe t = true
    · rw [if_pos hp] at h
      obtain rfl := Option.some.inj h
      exact ⟨hp, le_rfl, by omega, fun w h1 h2 => by omega⟩
    · rw [if_neg hp] at h
      obtain ⟨h1, h2, h3, h4⟩ := ih (t + 1) u h
      refine ⟨h1, by omega, by omega, ?_⟩
      intro w hw1 hw2
      rcases Nat.eq_or_lt_of_le hw1 with heq | hlt
      · rw [← heq]
        exact bool_eq_false hp
      · exact h4 w (by omega) hw2

theorem levelSearch_none (probe : ℕ → Bool) :
    ∀ (fuel t : ℕ), levelSearch probe t fuel = none →
      ∀ w, t ≤ w → w < t + fuel → probe w = false := by
  intro fuel
  induction fuel with
  | zero => intro t _ w h1 h2; omega
  | succ k ih =>
    intro t h w hw1 hw2
    simp only [levelSearch] at h
    by_cases hp : probe t = true
    · rw [if_pos hp] at h
      exact Option.noConfusion h
    · rw [if_neg hp] at h
      rcases Nat.eq_or_lt_of_le hw1 with heq | hlt
      · rw [← heq]
        exact bool_eq_false hp
      · exact ih (t + 1) h w (by omega) (by omega)

/-! The claims. -/

/-- C1 (counterexample): the claim as stated is false on the embedded
primitives: the largest-remainder evaluator with the rounded
Hagenbach-Bischoff quota, on the non-negative vote mapping {A: 1, B: 1} and
the requested total 1, awards 2 seats (the rounded quota is 1 and the floor
allocation alone already gives each candidate a seat), so the sum of awarded
seats differs from the requested total. -/
theorem c1_counterexample :
    total (lrEvaluate hagenbachBischoffRoundedQuota
      ([("A", 1), ("B", 1)] : List (String × ℕ)) 1) = 2 ∧ (2 : ℕ) ≠ 1 :=
  ⟨by decide, by decide⟩

/-- C1 (amended): for any vote mapping holding at least one positive vote
count, the highest-averages primitive (for any positive divisor sequence)
awards exactly the requested total `T`, and so does the largest-remainder
primitive with the exact Hare quota; the Hagenbach-Bischoff quotas can
overallocate by one seat, as the counterexample shows. -/
theorem c1_apportionment_total {κ : Type} (d : ℕ → ℕ) (votes : List (κ × ℕ))
    (T : ℕ) (hd : ∀ k, 0 < d k) (hex : ∃ p ∈ votes, 0 < p.2) :
    total (haEvaluate d votes T) = T ∧ total (lrEvaluate hareQuota votes T) = T := by
  constructor
  · exact haEvaluate_total d hd votes T hex
  · apply lrEvaluate_total_hare
    obtain ⟨p, hp, hpos⟩ := hex
    calc 0 < p.2 := hpos
      _ ≤ total votes :=
        List.single_le_sum (fun x _ => Nat.zero_le x) _
          (List.mem_map_of_mem Prod.snd hp)

/-- C1 (witness): the amended claim applied to the Sainte-Laguë divisors and
the concrete mapping {A: 3, B: 1} with 5 requested seats. -/
theorem c1_witness :
    total (haEvaluate sainteLague ([("A", 3), ("B", 1)] : List (String × ℕ)) 5) = 5 ∧
    total (lrEvaluate hareQuota ([("A", 3), ("B", 1)] : List (String × ℕ)) 5) = 5 := by
  have hd : ∀ k, 0 < sainteLague k := fun k => Nat.succ_pos (2 * k)
  have hex : ∃ p ∈ ([("A", 3), ("B", 1)] : List (String × ℕ)), 0 < p.2 := by decide
  exact ⟨(c1_apportionment_total sainteLague _ 5 hd hex).1,
    (c1_apportionment_total sainteLague _ 5 hd hex).2⟩

/-- C2 (counterexample): a composed evaluator of the German shape — the
two-round MMP distributor over an overhang instance, with a nominal
(requested) total of 6 — returns a seat mapping whose grand total is 8, not
the requested 6; the German notebook itself prints a grand total of 709 for
its requested 598.  The closed invariant "total awarded = total requested"
therefore fails for seat-count-adjusting evaluators. -/
theorem c2_counterexample :
    (mmpEvaluate smallNatEval sainteLague smallErst smallZweit 6 50).map grandTotal
      = Except.ok 8 ∧ (8 : ℕ) ≠ 6 :=
  ⟨by decide, by decide⟩

/-- C2 (amended): a seat-count-adjusting composed evaluator awards exactly
the ADJUSTED total determined by the overhang-leveling search: when the
search converges at `t`, the evaluator returns the by-party distribution of
the overall result at `t`, and its grand total equals `t` (which the
counterexample shows can exceed the nominal request); evaluators that do not
adjust the seat count award the requested total (see C1). -/
theorem c2_adjusted_total {ρ ω π : Type} [DecidableEq ρ] [DecidableEq π]
    (OE : List (π × ℕ) → ℕ → List (π × ℕ)) (d : ℕ → ℕ)
    (erst zweit : List (ρ × List (ω × List (π × ℕ)))) (T cap t : ℕ)
    (hd : ∀ k, 0 < d k)
    (hndR : ((regionVoteTotals zweit).map Prod.fst).Nodup)
    (hpos : ∀ pn ∈ OE (natVotes (regionVoteTotals zweit)) t, 0 < pn.2 →
      ∃ rm ∈ regionVoteTotals zweit, 0 < val rm.2 pn.1)
    (hOE : total (OE (natVotes (regionVoteTotals zweit)) t) = t)
    (hs : levelSearch
      (levelProbe OE d (regionVoteTotals zweit) (round1Eval erst)) T (cap + 1)
      = some t) :
    mmpEvaluate OE d erst zweit T cap = Except.ok
      (byParty d (OE (natVotes (regionVoteTotals zweit)) t)
        (regionVoteTotals zweit)) ∧
    grandTotal (byParty d (OE (natVotes (regionVoteTotals zweit)) t)
      (regionVoteTotals zweit)) = t := by
  refine ⟨?_, ?_⟩
  · rw [mmpEvaluate, adjustedSeatCount, hs]
  · rw [byParty_grandTotal d hd _ _ hndR hpos, hOE]

/-- C2 (witness): the amended claim applied to the small overhang instance,
whose leveling search started at the nominal 6 converges at the adjusted
total 8; the grand total of the final mapping is exactly 8. -/
theorem c2_witness :
    mmpEvaluate smallNatEval sainteLague smallErst smallZweit 6 50 = Except.ok
      (byParty sainteLague
        (smallNatEval (natVotes (regionVoteTotals smallZweit)) 8)
        (regionVoteTotals smallZweit)) ∧
    grandTotal (byParty sainteLague
      (smallNatEval (natVotes (regionVoteTotals smallZweit)) 8)
      (regionVoteTotals smallZweit)) = 8 :=
  c2_adjusted_total smallNatEval sainteLague smallErst smallZweit 6 50 8
    (fun k => Nat.succ_pos (2 * k)) (by decide) (by decide) (by decide) (by decide)

/-- C3: in an overhang scenario — some candidate's first-round
constituency-won seats in some region exceed its proportional allocation at
the nominal total `T` — a converging overhang-leveling run performs at least
one leveling iteration (the converged total `t` is strictly greater than
`T`), the final result is the by-party distribution at `t`, every
candidate's per-region allocation in it is at least that candidate's
constituency-won seat count in every region, and each candidate's seats
summed over the regions equal its share in the overall (threshold-filtered)
proportional distribution at the enlarged total `t`. -/
theorem c3_overhang_leveling {ρ π : Type} [DecidableEq ρ] [DecidableEq π]
    (OE : List (π × ℕ) → ℕ → List (π × ℕ)) (d : ℕ → ℕ)
    (rv fs : List (ρ × List (π × ℕ))) (T cap t : ℕ)
    (hd : ∀ k, 0 < d k)
    (hndR : (rv.map Prod.fst).Nodup)
    (hndP : ((OE (natVotes rv) t).map Prod.fst).Nodup)
    (hpos : ∀ pn ∈ OE (natVotes rv) t, 0 < pn.2 → ∃ rm ∈ rv, 0 < val rm.2 pn.1)
    (hs : levelSearch (levelProbe OE d rv fs) T (cap + 1) = some t)
    (hover : ∃ rm ∈ fs, ∃ pw ∈ rm.2,
      val (regionOf (byParty d (OE (natVotes rv) T) rv) rm.1) pw.1 < pw.2) :
    adjustedSeatCount OE d rv fs T cap =
      Except.ok (byParty d (OE (natVotes rv) t) rv) ∧
    T < t ∧
    (∀ rm ∈ fs, ∀ pw ∈ rm.2,
      pw.2 ≤ val (regionOf (byParty d (OE (natVotes rv) t) rv) rm.1) pw.1) ∧
    (∀ pn ∈ OE (natVotes rv) t,
      ((byParty d (OE (natVotes rv) t) rv).map (fun rm => val rm.2 pn.1)).sum
        = pn.2) := by
  obtain ⟨hpt, hle, _, _⟩ := levelSearch_some _ _ _ _ hs
  have hTfalse : levelProbe OE d rv fs T = false := by
    obtain ⟨rm, hrm, pw, hpw, hlt'⟩ := hover
    rw [levelProbe, List.all_eq_false]
    refine ⟨rm, hrm, ?_⟩
    intro hall
    rw [List.all_eq_true] at hall
    have := hall pw hpw
    rw [decide_eq_true_iff] at this
    omega
  have hTlt : T < t := by
    rcases Nat.eq_or_lt_of_le hle with heq | hlt
    · rw [heq, hpt] at hTfalse
      exact Bool.noConfusion hTfalse
    · exact hlt
  refine ⟨by rw [adjustedSeatCount, hs], hTlt, ?_, ?_⟩
  · intro rm hrm pw hpw
    rw [levelProbe, List.all_eq_true] at hpt
    have h1 := hpt rm hrm
    rw [List.all_eq_true] at h1
    have h2 := h1 pw hpw
    rw [decide_eq_true_iff] at h2
    exact h2
  · intro pn hmem
    exact byParty_party_total d hd _ rv hndP hndR pn hmem (hpos pn hmem)

/-- C3 (witness): the small overhang instance — party A wins 2 constituency
seats in region L1 but its proportional allocation at the nominal total 6
gives it only 1 seat there — converges at the strictly larger total 8, the
final allocation covers every constituency win, and the per-party regional
sums match the national distribution at 8. -/
theorem c3_witness :
    adjustedSeatCount smallNatEval sainteLague smallRv smallFixed 6 50 =
      Except.ok (byParty sainteLague
        (smallNatEval (natVotes smallRv) 8) smallRv) ∧
    6 < 8 ∧
    (∀ rm ∈ smallFixed, ∀ pw ∈ rm.2, pw.2 ≤ val (regionOf
      (byParty sainteLague (smallNatEval (natVotes smallRv) 8) smallRv) rm.1)
      pw.1) ∧
    (∀ pn ∈ smallNatEval (natVotes smallRv) 8,
      ((byParty sainteLague (smallNatEval (natVotes smallRv) 8) smallRv).map
        (fun rm => val rm.2 pn.1)).sum = pn.2) :=
  c3_overhang_leveling smallNatEval sainteLague smallRv smallFixed 6 50 8
    (fun k => Nat.succ_pos (2 * k)) (by decide) (by decide) (by decide)
    (by decide) (by decide)

/-- C4: the overhang-leveling fixed-point search always terminates with a
definite outcome: for every input, either some total in the probed window
satisfies the leveling condition — and the evaluator returns the by-party
distribution at the first such total — or no probed total satisfies it and
the evaluator reports the distinct non-convergence error, never looping
indefinitely or masking a result. -/
theorem c4_leveling_terminates {ρ π : Type} [DecidableEq ρ] [DecidableEq π]
    (OE : List (π × ℕ) → ℕ → List (π × ℕ)) (d : ℕ → ℕ)
    (rv fs : List (ρ × List (π × ℕ))) (T cap : ℕ) :
    (∃ t, T ≤ t ∧ t ≤ T + cap ∧ levelProbe OE d rv fs t = true ∧
      (∀ w, T ≤ w → w < t → levelProbe OE d rv fs w = false) ∧
      adjustedSeatCount OE d rv fs T cap =
        Except.ok (byParty d (OE (natVotes rv) t) rv)) ∨
    ((∀ w, T ≤ w → w ≤ T + cap → levelProbe OE d rv fs w = false) ∧
      adjustedSeatCount OE d rv fs T cap =
        Except.error VotelibError.nonConvergence) := by
  cases h : levelSearch (levelProbe OE d rv fs) T (cap + 1) with
  | some t =>
    left
    obtain ⟨h1, h2, h3, h4⟩ := levelSearch_some _ _ _ _ h
    exact ⟨t, h2, by omega, h1, h4, by rw [adjustedSeatCount, h]⟩
  | none =>
    right
    refine ⟨fun w hw1 hw2 =>
      levelSearch_none _ _ _ h w hw1 (by omega), ?_⟩
    rw [adjustedSeatCount, h]

/-- C4 (witness): the dichotomy instantiated at the small overhang instance. -/
theorem c4_witness :
    (∃ t, 6 ≤ t ∧ t ≤ 6 + 50 ∧
      levelProbe smallNatEval sainteLague smallRv smallFixed t = true ∧
      (∀ w, 6 ≤ w → w < t →
        levelProbe smallNatEval sainteLague smallRv smallFixed w = false) ∧
      adjustedSeatCount smallNatEval sainteLague smallRv smallFixed 6 50 =
        Except.ok (byParty sainteLague
          (smallNatEval (natVotes smallRv) t) smallRv)) ∨
    ((∀ w, 6 ≤ w → w ≤ 6 + 50 →
      levelProbe smallNatEval sainteLague smallRv smallFixed w = false) ∧
      adjustedSeatCount smallNatEval sainteLague smallRv smallFixed 6 50 =
        Except.error VotelibError.nonConvergence) :=
  c4_leveling_terminates smallNatEval sainteLague smallRv smallFixed 6 50

/-- C5: the Slovak 2020 evaluation — coalition-bracketed relative thresholds
conditioning the largest-remainder evaluator with the rounded
Hagenbach-Bischoff quota, at the fixed total of 150 seats, over the full
24-party vote mapping loaded in the notebook — awards OĽANO exactly 53
seats, as the notebook prints. -/
theorem c5_slovak_olano :
    val (skEvaluator skVotes) (Candidate.atomic "OĽANO") = 53 := by
  decide

/-- C6: under the coalition-member bracket dispatch of the Slovak notebook
(atomic = 1 member at 5 %, two- and three-member coalitions at 7 % with
`accept_equal`, larger coalitions falling back to the 10 % default), a
two-member coalition polling exactly 7 % of the national total is admitted,
and a two-member coalition polling one vote below the exact 7 % mark is
excluded. -/
theorem c6_coalition_bracket (votes : List (Candidate × ℕ)) (nm : String)
    (ms : List String) (v : ℕ) (hm : ms.length = 2) (hV : 0 < total votes)
    (hnd : (votes.map Prod.fst).Nodup)
    (hin : (Candidate.composite nm ms, v) ∈ votes) :
    (100 * v = 7 * total votes →
      Candidate.composite nm ms ∈ cmbEvaluate skBrackets rt10 votes) ∧
    (100 * (v + 1) = 7 * total votes →
      Candidate.composite nm ms ∉ cmbEvaluate skBrackets rt10 votes) := by
  have hbk : bracketFor skBrackets rt10 (Candidate.composite nm ms) = rt7 := by
    rw [bracketFor]
    have hmc : memberCount (Candidate.composite nm ms) = 2 := hm
    rw [hmc]
    rfl
  have hadm : ∀ w : ℕ, rtAdmits rt7 w (total votes) = true ↔
      7 * total votes ≤ w * 100 := by
    intro w
    rw [rtAdmits, if_pos (show rt7.acceptEqual = true by rfl),
      decide_eq_true_iff]
    exact mkRat_le_iff 7 100 w (total votes) (by omega) hV
  constructor
  · intro h7
    rw [cmbEvaluate]
    refine List.mem_map.mpr ⟨(Candidate.composite nm ms, v),
      List.mem_filter.mpr ⟨hin, ?_⟩, rfl⟩
    show rtAdmits (bracketFor skBrackets rt10 (Candidate.composite nm ms)) v
      (total votes) = true
    rw [hbk, hadm]
    omega
  · intro h7' hmem
    rw [cmbEvaluate] at hmem
    obtain ⟨q, hq, hq1⟩ := List.mem_map.mp hmem
    have hfil := List.mem_filter.mp hq
    have hqeq : q = (Candidate.composite nm ms, v) :=
      mem_eq_of_nodup_keys hnd hfil.1 hin hq1
    subst hqeq
    have hpass : rtAdmits (bracketFor skBrackets rt10
      (Candidate.composite nm ms)) v (total votes) = true := hfil.2
    rw [hbk, hadm] at hpass
    omega

/-- C6 (witness): a two-member coalition with 70 of 1000 national votes
(exactly 7 %) is admitted; with 69 of 1000 (one vote below the exact 7 %
mark) it is excluded. -/
theorem c6_witness :
    Candidate.composite "C" ["P1", "P2"] ∈ cmbEvaluate skBrackets rt10
      [(Candidate.composite "C" ["P1", "P2"], 70), (Candidate.atomic "A", 930)] ∧
    Candidate.composite "C" ["P1", "P2"] ∉ cmbEvaluate skBrackets rt10
      [(Candidate.composite "C" ["P1", "P2"], 69), (Candidate.atomic "A", 931)] :=
  ⟨(c6_coalition_bracket _ "C" ["P1", "P2"] 70 (by decide) (by decide) (by decide)
      (by decide)).1 (by decide),
   (c6_coalition_bracket _ "C" ["P1", "P2"] 69 (by decide) (by decide) (by decide)
      (by decide)).2 (by decide)⟩

/-- C7 (counterexample): `Conditioned` omits excluded candidates from its
result instead of listing them with zero seats: with a one-half relative
threshold over {A: 3, B: 1} and four seats distributed by the Hare
largest-remainder evaluator, the result is exactly {A: 4}; B is in the input
mapping but has no entry in the result — consistent with the Slovak
notebook's printed result, which contains only the six admitted parties. -/
theorem c7_counterexample :
    conditionedEval (rtEvaluate ⟨mkRat 1 2, true⟩) (lrEvaluate hareQuota)
      ([("A", 3), ("B", 1)] : List (String × ℕ)) 4 = [("A", 4)] ∧
    "B" ∈ ([("A", 3), ("B", 1)] : List (String × ℕ)).map Prod.fst ∧
    "B" ∉ (conditionedEval (rtEvaluate ⟨mkRat 1 2, true⟩) (lrEvaluate hareQuota)
      ([("A", 3), ("B", 1)] : List (String × ℕ)) 4).map Prod.fst :=
  ⟨by decide, by decide, by decide⟩

/-- C7 (amended): for every evaluation of `Conditioned`, a candidate present
in the input vote mapping but not admitted by the predicate evaluator is
absent from the final result mapping — it receives no entry (hence no
seats) rather than an explicit zero — whenever the inner evaluator only
emits candidates present in its input. -/
theorem c7_conditioned_excluded {κ : Type} [DecidableEq κ]
    (pred : List (κ × ℕ) → List κ) (inner : List (κ × ℕ) → ℕ → List (κ × ℕ))
    (votes : List (κ × ℕ)) (T : ℕ) (c : κ)
    (hkeys : ∀ (vs : List (κ × ℕ)) (n : ℕ),
      (inner vs n).map Prod.fst ⊆ vs.map Prod.fst)
    (_hcv : c ∈ votes.map Prod.fst) (hc : c ∉ pred votes) :
    c ∉ (conditionedEval pred inner votes T).map Prod.fst :=
  conditioned_absent pred inner votes T c hkeys hc

/-- C7 (witness): the amended claim applied to the counterexample's concrete
input: B is below the one-half threshold and absent from the result. -/
theorem c7_witness :
    "B" ∉ (conditionedEval (rtEvaluate ⟨mkRat 1 2, true⟩) (lrEvaluate hareQuota)
      ([("A", 3), ("B", 1)] : List (String × ℕ)) 4).map Prod.fst :=
  c7_conditioned_excluded (rtEvaluate ⟨mkRat 1 2, true⟩) (lrEvaluate hareQuota)
    [("A", 3), ("B", 1)] 4 "B"
    (fun vs n => by rw [lrEvaluate_keys]; exact fun x h => h)
    (by decide) (by decide)

/-- C9: `MergedDistributions` is associative and commutative over the region
dimension: merging {A,B} then C agrees with merging A then {B,C} at every
candidate; any permutation of the regions gives the same sums; the merge
equals flattening the whole nesting and summing per candidate directly; and
a candidate absent from a region contributes zero there. -/
theorem c9_merged_distributions {ρ κ : Type} [DecidableEq κ] :
    (∀ (r1 r2 r3 r4 r5 r6 : ρ) (a b c : List (κ × ℕ)) (x : κ),
      val (mergedDistributions
        [(r1, mergedDistributions [(r2, a), (r3, b)]), (r4, c)]) x =
      val (mergedDistributions
        [(r5, a), (r6, mergedDistributions [(r2, b), (r3, c)])]) x) ∧
    (∀ (n₁ n₂ : List (ρ × List (κ × ℕ))),
      List.Perm (n₁.map Prod.snd) (n₂.map Prod.snd) →
      ∀ x, val (mergedDistributions n₁) x = val (mergedDistributions n₂) x) ∧
    (∀ (n : List (ρ × List (κ × ℕ))) (x : κ),
      val (mergedDistributions n) x = val (n.map Prod.snd).flatten x) ∧
    (∀ (r : ρ) (m : List (κ × ℕ)) (n : List (ρ × List (κ × ℕ))) (x : κ),
      x ∉ m.map Prod.fst →
      val (mergedDistributions ((r, m) :: n)) x = val (mergedDistributions n) x) := by
  refine ⟨?_, ?_, ?_, ?_⟩
  · intro r1 r2 r3 r4 r5 r6 a b c x
    simp only [val_mergedDistributions, List.map_cons, List.map_nil,
      List.sum_cons, List.sum_nil]
    omega
  · intro n₁ n₂ hperm x
    rw [val_mergedDistributions, val_mergedDistributions]
    exact List.Perm.sum_eq (hperm.map (fun m => val m x))
  · intro n x
    rw [val_mergedDistributions, val_flatten]
  · intro r m n x hx
    rw [val_mergedDistributions, val_mergedDistributions, List.map_cons,
      List.map_cons, List.sum_cons, val_eq_zero_of_not_mem m x hx]
    omega

/-- C9 (witness): the merge laws at concrete mappings: permuting two regions
preserves every candidate's total, and a region not containing B contributes
zero to B. -/
theorem c9_witness :
    (val (mergedDistributions
      ([(1, [("A", 2)]), (2, [("B", 3)])] : List (ℕ × List (String × ℕ)))) "A" =
     val (mergedDistributions
      ([(2, [("B", 3)]), (1, [("A", 2)])] : List (ℕ × List (String × ℕ)))) "A") ∧
    (val (mergedDistributions
      ((1, [("A", 5)]) :: [(2, [("B", 1)])] : List (ℕ × List (String × ℕ)))) "B" =
     val (mergedDistributions
      ([(2, [("B", 1)])] : List (ℕ × List (String × ℕ)))) "B") :=
  ⟨c9_merged_distributions.2.1 _ _ (by decide) "A",
   c9_merged_distributions.2.2.2 1 [("A", 5)] [(2, [("B", 1)])] "B" (by decide)⟩

/-- C8: apportioning the 598 nominal Bundestag seats over the 16 German
state populations by the Sainte-Laguë highest-averages method reproduces
exactly the per-state seat counts the notebook prints, which sum exactly to
598; and every state's awarded count is within one seat of its exact
proportional share `598·pop/Σpop` (stated by cross-multiplication with the
total population). -/
theorem c8_state_apportionment :
    haEvaluate sainteLague landInhab 598 = landSeats ∧
    total landSeats = 598 ∧
    (landSeats.all (fun pr =>
      decide (pr.2 * total landInhab ≤ 598 * val landInhab pr.1 + total landInhab)
      && decide (598 * val landInhab pr.1 ≤ pr.2 * total landInhab + total landInhab)))
      = true := by
  have p : landInhab.map Prod.snd =
      [2673803, 1525090, 7278789, 568510, 15707569, 5281198, 3661245, 9365001,
       11362245, 899748, 2975745, 2391746, 1548400, 3914671, 2145671, 2077901] := by
    decide
  have h100 : haAlloc sainteLague (landInhab.map Prod.snd) 100 =
      [4, 2, 10, 1, 21, 7, 5, 13, 16, 1, 4, 3, 2, 5, 3, 3] := by
    rw [p]; decide
  have h200 : haAlloc sainteLague (landInhab.map Prod.snd) 200 =
      [7, 4, 20, 2, 43, 14, 10, 25, 31, 2, 8, 7, 4, 11, 6, 6] := by
    rw [show (200 : ℕ) = 100 + 100 from rfl, haAlloc_add, h100, p]; decide
  have h300 : haAlloc sainteLague (landInhab.map Prod.snd) 300 =
      [11, 6, 30, 2, 64, 22, 15, 38, 46, 4, 12, 10, 6, 16, 9, 9] := by
    rw [show (300 : ℕ) = 200 + 100 from rfl, haAlloc_add, h200, p]; decide
  have h400 : haAlloc sainteLague (landInhab.map Prod.snd) 400 =
      [15, 8, 40, 3, 86, 29, 20, 51, 62, 5, 16, 13, 8, 21, 12, 11] := by
    rw [show (400 : ℕ) = 300 + 100 from rfl, haAlloc_add, h300, p]; decide
  have h500 : haAlloc sainteLague (landInhab.map Prod.snd) 500 =
      [18, 10, 50, 4, 107, 36, 25, 64, 77, 6, 20, 16, 11, 27, 15, 14] := by
    rw [show (500 : ℕ) = 400 + 100 from rfl, haAlloc_add, h400, p]; decide
  have h598 : haAlloc sainteLague (landInhab.map Prod.snd) 598 =
      [22, 12, 59, 5, 128, 43, 30, 76, 93, 7, 24, 20, 13, 32, 17, 17] := by
    rw [show (598 : ℕ) = 500 + 98 from rfl, haAlloc_add, h500, p]; decide
  refine ⟨?_, by decide, by decide⟩
  show (landInhab.map Prod.fst).zip _ = _
  rw [h598]
  decide

end Votelib
